import Mathlib

/-!
Verification of the Guardian Integration Gateway core against its
natural-language specification.

The development shallowly embeds the two core components and the
orchestrating flow of the repository:

* the Failure Gate (circuit breaker) — embedded from the
  `circuitBreaker.service` implementation (module-level `failureCount`,
  `isOpen`, `recordFailure`, `recordSuccess`, `reset`, `getFailureCount`);
  the single mutable counter becomes an explicit `Int` state threaded
  through pure functions;
* the Redactor (`sanitize`, `isValidLuhn`) — the `sanitizer.service`
  implementation is not present in the snapshot (only its tests), so these
  are modelled from the spec, §4.1;
* the secure-inquiry use case (`executeSecureInquiry`) — embedded from
  `secureInquiry.usecase` with injected dependencies modelled as explicit
  function records, `await`/`throw` as `Except`, and the calls made to the
  collaborators recorded in an explicit call log.
-/

namespace Guardian

/-! ### Failure Gate (circuit breaker)

Embedded from the circuitBreaker.service implementation:
`FAILURE_THRESHOLD = 3`, a single counter `failureCount` starting at 0,
`isOpen()` returns `failureCount >= FAILURE_THRESHOLD`, `recordFailure()`
does `failureCount += 1`, `recordSuccess()` and `reset()` do
`failureCount = 0`, `getFailureCount()` returns the counter.
The JS number state is modelled as an `Int`; each operation is a pure
function of the counter. -/

/-- Threshold for consecutive failures before opening the circuit. -/
def FAILURE_THRESHOLD : Int := 3

/-- `isOpen()`: true iff the circuit is open (3+ consecutive failures). -/
def isOpen (failureCount : Int) : Bool := FAILURE_THRESHOLD ≤ failureCount

/-- `recordFailure()`: increments the consecutive failure count. -/
def recordFailure (failureCount : Int) : Int := failureCount + 1

/-- `recordSuccess()`: resets the consecutive failure count to zero. -/
def recordSuccess (_failureCount : Int) : Int := 0

/-- `reset()`: resets the circuit breaker state (for testing purposes). -/
def reset (_failureCount : Int) : Int := 0

/-- `getFailureCount()`: returns the current consecutive failure count. -/
def getFailureCount (failureCount : Int) : Int := failureCount

/-- The operations exported by the circuit breaker service. -/
inductive GateOp where
  | opIsOpen
  | opRecordFailure
  | opRecordSuccess
  | opReset
  | opGetFailureCount
deriving DecidableEq

/-- Effect of one exported operation on the counter state (the two queries
`isOpen`/`getFailureCount` leave the state unchanged). -/
def gateStep : GateOp → Int → Int
  | GateOp.opIsOpen, c => c
  | GateOp.opRecordFailure, c => recordFailure c
  | GateOp.opRecordSuccess, c => recordSuccess c
  | GateOp.opReset, c => reset c
  | GateOp.opGetFailureCount, c => c

/-- Running a sequence of gate operations from a counter state. -/
def gateRun : List GateOp → Int → Int
  | [], c => c
  | op :: ops, c => gateRun ops (gateStep op c)

/-! ### Secure-inquiry use case

Embedded from `secureInquiry.usecase` (`createSecureInquiryUseCase` /
`executeSecureInquiry`): check circuit breaker (fail fast if open), sanitize
the message, call the AI port, record success/failure on the gate, audit on
success only, return the answer.  The injected dependencies are modelled as
a record of pure functions (`Except ε` for the fallible asynchronous ports,
with `ε` the type of the thrown error objects), the wall-clock timestamp as
an explicit parameter, and every call to a collaborator is recorded in an
explicit call log so "never invoked" is statable. -/

/-- Audit entry shape passed to `auditDbPort.saveAudit`. -/
structure AuditEntry where
  userId : String
  timestamp : String
  originalMessageEncrypted : String
  sanitizedMessage : String
deriving DecidableEq

/-- One call made by the use case to an injected collaborator. -/
inductive CallEvent where
  | sanitizeCall (message : String)
  | generateCall (sanitizedMessage : String)
  | recordSuccessCall
  | recordFailureCall
  | encryptCall (message : String)
  | saveAuditCall (entry : AuditEntry)
deriving DecidableEq

/-- What `executeSecureInquiry` can throw: the `CircuitOpenError` (whose
`message` is `'Service Busy'`), or a dependency error propagated as-is. -/
inductive Thrown (ε : Type) where
  | circuitOpen (message : String)
  | dep (e : ε)
deriving DecidableEq

/-- The injected dependencies of `createSecureInquiryUseCase`. -/
structure Deps (ε : Type) where
  sanitize : String → String
  generateAnswer : String → Except ε String
  encrypt : String → Except ε String
  saveAudit : AuditEntry → Except ε Unit

/-- Result of one `executeSecureInquiry` run: the returned answer or thrown
error, the circuit-breaker counter afterwards, and the calls made to the
injected collaborators, in order. -/
structure UCOutcome (ε : Type) where
  result : Except (Thrown ε) String
  failureCount : Int
  calls : List CallEvent

/-- `executeSecureInquiry({userId, message})` embedded step for step from
the source: (1) fail fast with `CircuitOpenError('Service Busy')` when the
breaker is open; (2) `sanitize(message)`; (3) `generateAnswer` on the
sanitized message, recording success or failure on the breaker and
re-throwing the AI error unchanged; (4) on success, encrypt the original
message and save the audit entry; (5) return the answer. -/
def executeSecureInquiry {ε : Type} (deps : Deps ε) (failureCount : Int)
    (userId message timestamp : String) : UCOutcome ε :=
  if isOpen failureCount then
    { result := Except.error (Thrown.circuitOpen "Service Busy"),
      failureCount := failureCount, calls := [] }
  else
    let sanitizedMessage := deps.sanitize message
    match deps.generateAnswer sanitizedMessage with
    | Except.error e =>
        { result := Except.error (Thrown.dep e),
          failureCount := recordFailure failureCount,
          calls := [CallEvent.sanitizeCall message,
                    CallEvent.generateCall sanitizedMessage,
                    CallEvent.recordFailureCall] }
    | Except.ok answer =>
        let newCount := recordSuccess failureCount
        match deps.encrypt message with
        | Except.error e =>
            { result := Except.error (Thrown.dep e),
              failureCount := newCount,
              calls := [CallEvent.sanitizeCall message,
                        CallEvent.generateCall sanitizedMessage,
                        CallEvent.recordSuccessCall,
                        CallEvent.encryptCall message] }
        | Except.ok encrypted =>
            let entry : AuditEntry :=
              { userId := userId, timestamp := timestamp,
                originalMessageEncrypted := encrypted,
                sanitizedMessage := sanitizedMessage }
            match deps.saveAudit entry with
            | Except.error e =>
                { result := Except.error (Thrown.dep e),
                  failureCount := newCount,
                  calls := [CallEvent.sanitizeCall message,
                            CallEvent.generateCall sanitizedMessage,
                            CallEvent.recordSuccessCall,
                            CallEvent.encryptCall message,
                            CallEvent.saveAuditCall entry] }
            | Except.ok _ =>
                { result := Except.ok answer,
                  failureCount := newCount,
                  calls := [CallEvent.sanitizeCall message,
                            CallEvent.generateCall sanitizedMessage,
                            CallEvent.recordSuccessCall,
                            CallEvent.encryptCall message,
                            CallEvent.saveAuditCall entry] }

/-! ### Redactor — Luhn checksum

The `sanitizer.service` implementation is not present in the snapshot (only
its test suite), so the Redactor is modelled from the spec, §4.1. -/

/-- Modelled from the spec: the adjustment applied to every second digit of
a Luhn candidate — double it and, if that exceeds 9, subtract 9. -/
def luhnDouble (d : Nat) : Nat := if 9 < 2 * d then 2 * d - 9 else 2 * d

/-- Modelled from the spec: the Luhn sum over the digits listed from the
rightmost digit moving left — the first digit (1-indexed position 1 from
the right) is kept, every second one is doubled-and-adjusted, and all are
summed. -/
def luhnSumRev : List Nat → Nat
  | [] => 0
  | [d] => d
  | d :: e :: rest => d + luhnDouble e + luhnSumRev rest

/-- Numeric value of a decimal digit character. -/
def charDigit (c : Char) : Nat := c.toNat - '0'.toNat

/-- Modelled from the spec: `isValidLuhn` over a digit list — the candidate
is valid iff the Luhn sum over its digits, taken from the right, is
divisible by 10. -/
def isValidLuhnList (run : List Char) : Bool :=
  luhnSumRev ((run.map charDigit).reverse) % 10 == 0

/-- Modelled from the spec: `isValidLuhn(candidate)` on a digit string. -/
def isValidLuhn (s : String) : Bool := isValidLuhnList s.data

/-- Positional transcription of the spec's Luhn wording: element `i`
(0-indexed, counted from the rightmost digit, so 1-indexed position `i+1`)
is doubled-and-adjusted exactly when `i + 1` is even. -/
def luhnSpecTerms : Nat → List Nat → List Nat
  | _, [] => []
  | i, d :: rest =>
      (if (i + 1) % 2 = 0 then luhnDouble d else d) :: luhnSpecTerms (i + 1) rest

/-! ### Redactor — the three detectors

Modelled from the spec, §4.1: `sanitize` applies three passes in the fixed
order email → credit card → SSN, each pass operating only on the output of
the previous one.  The email detector is the leftmost-greedy scan for
"one-or-more local chars, then `@`, then domain chars with at least one
dot, then a top-level label of at least two letters"; the digit detectors
replace maximal digit runs (bounded by non-digit or string edges) of the
qualifying length.  Each detector is a direct character-scanning function,
as the spec's design notes demand. -/

/-- Modelled from the spec: local-part characters of the email detector —
letters, digits, and `. _ % + -`. -/
def isLocalChar (c : Char) : Bool :=
  c.isAlpha || c.isDigit || c = '.' || c = '_' || c = '%' || c = '+' || c = '-'

/-- Modelled from the spec: domain characters of the email detector —
letters, digits, dot and hyphen. -/
def isDomainChar (c : Char) : Bool :=
  c.isAlpha || c.isDigit || c = '.' || c = '-'

/-- Modelled from the spec: inside the run of domain characters after the
`@`, find the rightmost dot that is followed by a top-level label of at
least two letters (the greedy reading of "domain chars with at least one
dot then a top-level label of at least two letters").  Returns the consumed
part (`…dot :: label`) and the unconsumed remainder of the run. -/
def domSplit : List Char → Option (List Char × List Char)
  | [] => none
  | c :: ds =>
      match domSplit ds with
      | some (d1, rest) => some (c :: d1, rest)
      | none =>
          if c = '.' then
            let tld := ds.takeWhile Char.isAlpha
            if 2 ≤ tld.length then some (c :: tld, ds.dropWhile Char.isAlpha)
            else none
          else none

/-- Modelled from the spec: attempt an email match at the head of the
character list.  Succeeds when a nonempty run of local characters is
immediately followed by `@`, a nonempty run of domain characters, and —
inside that run — a dot followed by at least two letters.  Returns the
matched span and the remaining characters. -/
def tryEmail (cs : List Char) : Option (List Char × List Char) :=
  match cs.dropWhile isLocalChar with
  | [] => none
  | a :: r2 =>
      if a = '@' ∧ cs.takeWhile isLocalChar ≠ [] then
        match r2.takeWhile isDomainChar with
        | [] => none
        | d0 :: drest =>
            match domSplit drest with
            | some (d1, domRest) =>
                some (cs.takeWhile isLocalChar ++ '@' :: d0 :: d1,
                      domRest ++ r2.dropWhile isDomainChar)
            | none => none
      else none

/-- The fixed email placeholder token. -/
def emailTok : List Char := "<REDACTED: EMAIL>".data

/-- The fixed credit-card placeholder token. -/
def cardTok : List Char := "<REDACTED: CREDIT_CARD>".data

/-- The fixed SSN placeholder token. -/
def ssnTok : List Char := "<REDACTED: SSN>".data

/-- Modelled from the spec: the email pass scanner.  At each position it
attempts an email match; on a match it emits the placeholder and continues
after the matched span (non-overlapping matches, left to right), otherwise
it copies the character.  `fuel` bounds the number of steps (every step
consumes at least one character, so `cs.length` fuel always suffices). -/
def redactEmailGo : Nat → List Char → List Char
  | _, [] => []
  | 0, cs => cs
  | fuel + 1, c :: cs =>
      match tryEmail (c :: cs) with
      | some (_, rest) => emailTok ++ redactEmailGo fuel rest
      | none => c :: redactEmailGo fuel cs

/-- Modelled from the spec: the email detector pass — every non-overlapping
email match is replaced by `<REDACTED: EMAIL>`. -/
def redactEmails (cs : List Char) : List Char := redactEmailGo cs.length cs

/-- Flush a pending maximal digit run: empty stays empty, a qualifying
run becomes the placeholder token, any other run is kept verbatim. -/
def flushRun (pred : List Char → Bool) (tok run : List Char) : List Char :=
  if run = [] then [] else if pred run then tok else run

/-- Modelled from the spec: generic digit-run pass.  `run` accumulates the
current maximal digit run; a non-digit character (or the end of the input)
terminates the run, which is replaced by `tok` exactly when `pred` accepts
it. -/
def redactDigitsGo (pred : List Char → Bool) (tok : List Char) :
    List Char → List Char → List Char
  | run, [] => flushRun pred tok run
  | run, c :: cs =>
      if c.isDigit then redactDigitsGo pred tok (run ++ [c]) cs
      else flushRun pred tok run ++ c :: redactDigitsGo pred tok [] cs

/-- Modelled from the spec: credit-card candidate test — a maximal digit
run of 13 to 19 digits that passes the Luhn checksum. -/
def isCardRun (run : List Char) : Bool :=
  13 ≤ run.length && run.length ≤ 19 && isValidLuhnList run

/-- Modelled from the spec: SSN candidate test — a maximal digit run of
exactly 9 digits, no checksum. -/
def isSsnRun (run : List Char) : Bool := run.length == 9

/-- Modelled from the spec: the credit-card pass — every boundary-delimited
13–19 digit run passing Luhn becomes `<REDACTED: CREDIT_CARD>`. -/
def redactCards (cs : List Char) : List Char := redactDigitsGo isCardRun cardTok [] cs

/-- Modelled from the spec: the SSN pass — every boundary-delimited run of
exactly 9 digits becomes `<REDACTED: SSN>`. -/
def redactSSNs (cs : List Char) : List Char := redactDigitsGo isSsnRun ssnTok [] cs

/-- Modelled from the spec: the full redaction pipeline on the characters
of a string — fixed pass order (1) emails, (2) credit cards, (3) SSNs, each
pass operating only on the output of the previous one. -/
def sanitizeChars (cs : List Char) : List Char :=
  redactSSNs (redactCards (redactEmails cs))

/-- Modelled from the spec: `sanitize` on an actual string — the empty
string is a defined degenerate case returning the empty string. -/
def sanitizeString (s : String) : String :=
  if s = "" then "" else String.mk (sanitizeChars s.data)

/-- The JavaScript value shapes `sanitize` can receive besides a string. -/
inductive JSValue where
  | str (s : String)
  | num (n : Int)
  | null
  | undefined
  | arr (elems : List JSValue)
  | obj (tag : String)

/-- Modelled from the spec: `sanitize(message)` — any non-string input, and
the empty string, yields the empty string without raising; a nonempty string
goes through the three redaction passes. -/
def sanitize : JSValue → String
  | JSValue.str s => sanitizeString s
  | _ => ""

/-- The two digit passes (credit card then SSN) chained, i.e. the pipeline
after the email pass. -/
def digitPasses (cs : List Char) : List Char := redactSSNs (redactCards cs)

/-- A continuation that can legitimately follow a piece of sanitizer output:
nothing, or a placeholder token (every placeholder starts with `<`). -/
def GoodTail (rest : List Char) : Prop := rest = [] ∨ ∃ r, rest = '<' :: r

/-- No suffix of `xs`, extended by any legitimate continuation, admits an
email match: the key invariant of sanitizer output for idempotence. -/
def EmailCtxSafe (xs : List Char) : Prop :=
  ∀ zs rest, zs <:+ xs → GoodTail rest → tryEmail (zs ++ rest) = none

/-- The output of a pass agrees with its input up to the first inserted
placeholder (which starts with `<`). -/
def PrefRel (v out : List Char) : Prop :=
  out = v ∨ ∃ a r1 r2, v = a ++ r1 ∧ out = a ++ '<' :: r2

/-- A pending maximal digit run is acceptable for `pred` when it is empty
or fails `pred`. -/
def runOk (pred : List Char → Bool) (run : List Char) : Bool :=
  run.isEmpty || !pred run

/-- Every maximal digit run of the input (with `run` the digit run already
in progress) fails `pred`. -/
def runsFailGo (pred : List Char → Bool) : List Char → List Char → Bool
  | run, [] => runOk pred run
  | run, c :: cs =>
      if c.isDigit then runsFailGo pred (run ++ [c]) cs
      else runOk pred run && runsFailGo pred [] cs

/-- Every maximal digit run of `cs` fails `pred`. -/
def runsFail (pred : List Char → Bool) (cs : List Char) : Bool :=
  runsFailGo pred [] cs

/-- Decidable check that no suffix of `cs` admits an email match — i.e. the
email detector finds nothing anywhere in `cs`. -/
def emailCleanB (cs : List Char) : Bool :=
  cs.tails.all (fun zs => (tryEmail zs).isNone)

end Guardian

namespace Guardian

/-- C1: `isOpen` is a pure query over the counter, true iff the counter is at
least the threshold 3; `recordFailure` increments the counter by exactly 1
(also past 3, `isOpen` staying true for every value ≥ 3); from a fresh gate
(counter 0) `isOpen` is false; after exactly 3 `recordFailure` calls it is
true; after any `recordSuccess`/`reset` it is false with `getFailureCount`
returning 0; and after a success followed by only 2 failures it is still
false. -/
theorem failureGate_stateMachine :
    (∀ c : Int, isOpen c = true ↔ FAILURE_THRESHOLD ≤ c)
    ∧ (∀ c : Int, recordFailure c = c + 1)
    ∧ isOpen 0 = false
    ∧ isOpen (recordFailure (recordFailure (recordFailure 0))) = true
    ∧ (∀ c : Int, isOpen (recordSuccess c) = false
        ∧ getFailureCount (recordSuccess c) = 0
        ∧ isOpen (reset c) = false
        ∧ getFailureCount (reset c) = 0)
    ∧ (∀ c : Int, isOpen (recordFailure (recordFailure (recordSuccess c))) = false) := by
  refine ⟨fun c => ?_, fun c => rfl, by decide, by decide, fun c => ?_, fun c => ?_⟩
  · simp [isOpen]
  · exact ⟨rfl, rfl, rfl, rfl⟩
  · rfl

/-- C1 witness: the state-machine theorem applied at the concrete counter
value 5 — the gate is open for every counter at or above the threshold. -/
theorem failureGate_stateMachine_witness : isOpen 5 = true :=
  (failureGate_stateMachine.1 5).mpr (by decide)

/-- C6: over every gate operation, the counter state changes only by being
incremented by 1 (`recordFailure`), being zeroed (`recordSuccess`/`reset`),
or staying put (the pure queries); whenever an operation decreases the
counter the new value is 0; and along any operation sequence from the
initial counter 0 the counter stays a non-negative integer. -/
theorem failureCounter_invariant :
    (∀ (op : GateOp) (c : Int),
        gateStep op c = c + 1 ∨ gateStep op c = 0 ∨ gateStep op c = c)
    ∧ (∀ (op : GateOp) (c : Int), gateStep op c < c → gateStep op c = 0)
    ∧ (∀ ops : List GateOp, 0 ≤ gateRun ops 0) := by
  refine ⟨fun op c => ?_, fun op c h => ?_, fun ops => ?_⟩
  · cases op <;> simp [gateStep, recordFailure, recordSuccess, reset]
  · cases op <;> simp_all [gateStep, recordFailure, recordSuccess, reset]
  · have key : ∀ (ops : List GateOp) (c : Int), 0 ≤ c → 0 ≤ gateRun ops c := by
      intro ops
      induction ops with
      | nil => intro c hc; exact hc
      | cons op ops ih =>
          intro c hc
          refine ih (gateStep op c) ?_
          cases op <;> simp [gateStep, recordFailure, recordSuccess, reset] <;> omega
    exact key ops 0 le_rfl

/-- C6 witness: the hypothesis-bearing part of the invariant applied at a
concrete decreasing step (`recordSuccess` from counter 5). -/
theorem failureCounter_invariant_witness :
    gateStep GateOp.opRecordSuccess 5 = 0 :=
  failureCounter_invariant.2.1 GateOp.opRecordSuccess 5 (by decide)

/-- C7: `reset` and `recordSuccess` have identical effect on the gate state:
for every prior counter value they both unconditionally set the counter to 0
and leave the gate Closed. -/
theorem reset_equiv_recordSuccess :
    (∀ k : Int, reset k = recordSuccess k)
    ∧ (∀ k : Int, reset k = 0 ∧ recordSuccess k = 0)
    ∧ (∀ k : Int, isOpen (reset k) = false ∧ isOpen (recordSuccess k) = false) := by
  refine ⟨fun k => rfl, fun k => ⟨rfl, rfl⟩, fun k => ⟨rfl, rfl⟩⟩

/-- Shifting the starting position by 2 does not change which Luhn terms are
doubled: doubling depends on position parity only. -/
theorem luhnSpecTerms_shift (rs : List Nat) :
    ∀ i : Nat, luhnSpecTerms (i + 2) rs = luhnSpecTerms i rs := by
  induction rs with
  | nil => intro i; rfl
  | cons d rest ih =>
      intro i
      simp only [luhnSpecTerms]
      rw [show i + 2 + 1 = i + 1 + 2 from rfl, Nat.add_mod_right, ih (i + 1)]

/-- The pairwise-recursive Luhn sum equals the positional description:
summing the per-position terms where every 1-indexed even position from the
right is doubled-and-adjusted. -/
theorem luhnSumRev_eq_spec : ∀ rs : List Nat,
    luhnSumRev rs = (luhnSpecTerms 0 rs).sum
  | [] => rfl
  | [d] => by simp [luhnSumRev, luhnSpecTerms]
  | d :: e :: rest => by
      have ih := luhnSumRev_eq_spec rest
      simp only [luhnSumRev, luhnSpecTerms, List.sum_cons, ih]
      rw [show (0 + 1 + 1 : Nat) = 0 + 2 from rfl, luhnSpecTerms_shift rest 0]
      norm_num
      omega

/-- C3: `isValidLuhn` follows exactly the specified Luhn checksum — from the
rightmost digit moving left, every second digit (1-indexed positions 2, 4,
6, … from the right) is doubled with 9 subtracted when the result exceeds 9,
all terms are summed, and the digit string is valid iff the sum is divisible
by 10; in particular the three reference values hold. -/
theorem isValidLuhn_spec :
    (∀ s : String, isValidLuhn s = true ↔
        (luhnSpecTerms 0 ((s.data.map charDigit).reverse)).sum % 10 = 0)
    ∧ isValidLuhn "4532015112830366" = true
    ∧ isValidLuhn "1234567890123456" = false
    ∧ isValidLuhn "0000000000000000" = true := by
  refine ⟨fun s => ?_, by decide, by decide, by decide⟩
  rw [isValidLuhn, isValidLuhnList, ← luhnSumRev_eq_spec]
  simp

/-! #### Helper lemmas on `takeWhile`/`dropWhile` -/

theorem takeWhile_all_append {α : Type} (p : α → Bool) {l : List α} (r : List α)
    (h : ∀ c ∈ l, p c = true) :
    (l ++ r).takeWhile p = l ++ r.takeWhile p := by
  induction l with
  | nil => rfl
  | cons a l ih =>
      have ha : p a = true := h a (List.mem_cons_self a l)
      have hl : ∀ c ∈ l, p c = true := fun c hc => h c (List.mem_cons_of_mem a hc)
      simp [List.takeWhile_cons_of_pos ha, ih hl]

theorem dropWhile_all_append {α : Type} (p : α → Bool) {l : List α} (r : List α)
    (h : ∀ c ∈ l, p c = true) :
    (l ++ r).dropWhile p = r.dropWhile p := by
  induction l with
  | nil => rfl
  | cons a l ih =>
      have ha : p a = true := h a (List.mem_cons_self a l)
      have hl : ∀ c ∈ l, p c = true := fun c hc => h c (List.mem_cons_of_mem a hc)
      simp [List.dropWhile_cons_of_pos ha, ih hl]

theorem takeWhile_stop {α : Type} (p : α → Bool) {l : List α} {x : α} (r : List α)
    (h : ∀ c ∈ l, p c = true) (hx : p x = false) :
    (l ++ x :: r).takeWhile p = l := by
  rw [takeWhile_all_append p _ h, List.takeWhile_cons_of_neg (by simp [hx]),
    List.append_nil]

theorem dropWhile_stop {α : Type} (p : α → Bool) {l : List α} {x : α} (r : List α)
    (h : ∀ c ∈ l, p c = true) (hx : p x = false) :
    (l ++ x :: r).dropWhile p = x :: r := by
  rw [dropWhile_all_append p _ h, List.dropWhile_cons_of_neg (by simp [hx])]

theorem suffix_split {α : Type} {a b zs : List α} (h : zs <:+ a ++ b) :
    zs <:+ b ∨ ∃ za, za <:+ a ∧ za ≠ [] ∧ zs = za ++ b := by
  induction a with
  | nil => exact Or.inl (by simpa using h)
  | cons x a ih =>
      rcases List.suffix_cons_iff.mp (by simpa using h) with heq | hsub
      · exact Or.inr ⟨x :: a, List.suffix_refl _, by simp, by simpa using heq⟩
      · rcases ih hsub with h1 | ⟨za, hza, hne, rfl⟩
        · exact Or.inl h1
        · exact Or.inr ⟨za, hza.trans (List.suffix_cons x a), hne, rfl⟩

theorem suffix_append_same {α : Type} {l₁ l₂ : List α} (t : List α)
    (h : l₁ <:+ l₂) : l₁ ++ t <:+ l₂ ++ t := by
  obtain ⟨b, rfl⟩ := h
  exact ⟨b, by rw [List.append_assoc]⟩

theorem dropWhile_head_neg {α : Type} {p : α → Bool} : ∀ {l : List α} {x : α}
    {b : List α}, l.dropWhile p = x :: b → p x = false := by
  intro l
  induction l with
  | nil => intro x b h; simp at h
  | cons a l ih =>
      intro x b h
      by_cases hpa : p a
      · rw [List.dropWhile_cons_of_pos hpa] at h; exact ih h
      · rw [List.dropWhile_cons_of_neg hpa] at h
        cases h
        simpa using hpa

/-! #### Structure of `domSplit` and `tryEmail` -/

theorem domSplit_shape : ∀ {ds d1 rest : List Char},
    domSplit ds = some (d1, rest) →
    ds = d1 ++ rest ∧ ∃ pre tld, d1 = pre ++ '.' :: tld
      ∧ (∀ c ∈ tld, c.isAlpha = true) ∧ 2 ≤ tld.length := by
  intro ds
  induction ds with
  | nil => intro d1 rest h; simp [domSplit] at h
  | cons c ds ih =>
      intro d1 rest h
      cases hrec : domSplit ds with
      | some pr =>
          obtain ⟨dd, rr⟩ := pr
          simp only [domSplit, hrec] at h
          obtain ⟨rfl, rfl⟩ : c :: dd = d1 ∧ rr = rest := by
            constructor <;> [exact congrArg Prod.fst (Option.some_injective _ h);
              exact congrArg Prod.snd (Option.some_injective _ h)]
          obtain ⟨hds, pre, tld, hdd, htld, hlen⟩ := ih hrec
          exact ⟨by simp [hds], c :: pre, tld, by simp [hdd], htld, hlen⟩
      | none =>
          simp only [domSplit, hrec] at h
          by_cases hc : c = '.'
          · subst hc
            rw [if_pos rfl] at h
            by_cases hlen : 2 ≤ (ds.takeWhile Char.isAlpha).length
            · rw [if_pos hlen] at h
              obtain ⟨rfl, rfl⟩ :
                  '.' :: ds.takeWhile Char.isAlpha = d1
                    ∧ ds.dropWhile Char.isAlpha = rest := by
                constructor <;> [exact congrArg Prod.fst (Option.some_injective _ h);
                  exact congrArg Prod.snd (Option.some_injective _ h)]
              refine ⟨by simp [List.takeWhile_append_dropWhile], [],
                ds.takeWhile Char.isAlpha, by simp,
                fun x hx => List.mem_takeWhile_imp hx, hlen⟩
            · rw [if_neg hlen] at h; exact absurd h (by simp)
          · rw [if_neg hc] at h; exact absurd h (by simp)

theorem domSplit_isSome (pre tld extra : List Char)
    (hlen : 2 ≤ tld.length) (htld : ∀ c ∈ tld, c.isAlpha = true) :
    (domSplit (pre ++ '.' :: (tld ++ extra))).isSome = true := by
  induction pre with
  | nil =>
      simp only [List.nil_append, domSplit]
      cases hrec : domSplit (tld ++ extra) with
      | some pr => simp
      | none =>
          have htw : (tld ++ extra).takeWhile Char.isAlpha
              = tld ++ extra.takeWhile Char.isAlpha :=
            takeWhile_all_append _ _ htld
          have hlen2 : 2 ≤ (tld ++ extra.takeWhile Char.isAlpha).length := by
            simp only [List.length_append]; omega
          simp only [hrec, htw]
          rw [if_pos hlen2]
          simp
  | cons c pre ih =>
      simp only [List.cons_append, domSplit]
      cases hrec : domSplit (pre ++ '.' :: (tld ++ extra)) with
      | some pr => simp
      | none => rw [hrec] at ih; simp at ih

theorem tryEmail_shape : ∀ {cs con rest : List Char},
    tryEmail cs = some (con, rest) →
    cs = con ++ rest
    ∧ ∃ loc pre tld,
        con = loc ++ '@' :: (pre ++ '.' :: tld)
        ∧ loc ≠ [] ∧ (∀ c ∈ loc, isLocalChar c = true)
        ∧ pre ≠ [] ∧ (∀ c ∈ pre, isDomainChar c = true)
        ∧ (∀ c ∈ tld, c.isAlpha = true) ∧ 2 ≤ tld.length := by
  intro cs con rest h
  unfold tryEmail at h
  cases hdw : cs.dropWhile isLocalChar with
  | nil => rw [hdw] at h; exact absurd h (by simp)
  | cons a r2 =>
      rw [hdw] at h
      dsimp only at h
      by_cases hcond : a = '@' ∧ cs.takeWhile isLocalChar ≠ []
      · rw [if_pos hcond] at h
        obtain ⟨ha, hloc⟩ := hcond
        subst ha
        cases hdom : r2.takeWhile isDomainChar with
        | nil => rw [hdom] at h; exact absurd h (by simp)
        | cons d0 drest =>
            rw [hdom] at h
            dsimp only at h
            cases hds : domSplit drest with
            | none => rw [hds] at h; exact absurd h (by simp)
            | some pr =>
                obtain ⟨d1, domRest⟩ := pr
                rw [hds] at h
                obtain ⟨rfl, rfl⟩ :
                    cs.takeWhile isLocalChar ++ '@' :: d0 :: d1 = con
                      ∧ domRest ++ r2.dropWhile isDomainChar = rest := by
                  constructor <;>
                    [exact congrArg Prod.fst (Option.some_injective _ h);
                     exact congrArg Prod.snd (Option.some_injective _ h)]
                obtain ⟨hdrest, pre1, tld, hd1, htld, hlen⟩ := domSplit_shape hds
                have hr2 : r2 = d0 :: drest ++ r2.dropWhile isDomainChar := by
                  conv_lhs => rw [← List.takeWhile_append_dropWhile isDomainChar r2]
                  rw [hdom]
                have hcs : cs = cs.takeWhile isLocalChar ++ '@' :: r2 := by
                  conv_lhs => rw [← List.takeWhile_append_dropWhile isLocalChar cs]
                  rw [hdw]
                refine ⟨?_, cs.takeWhile isLocalChar, d0 :: pre1, tld,
                  by simp [hd1], hloc,
                  fun c hc => List.mem_takeWhile_imp hc, by simp, ?_, htld, hlen⟩
                · rw [hdrest] at hr2
                  conv_lhs => rw [hcs]
                  conv_lhs => rw [hr2]
                  simp
                · intro c hc
                  have hmem : c ∈ r2.takeWhile isDomainChar := by
                    rw [hdom]
                    rcases List.mem_cons.mp hc with rfl | hc2
                    · exact List.mem_cons_self _ _
                    · have : c ∈ drest := by
                        rw [hdrest, hd1]
                        exact List.mem_append_left _ (List.mem_append_left _ hc2)
                      exact List.mem_cons_of_mem _ this
                  exact List.mem_takeWhile_imp hmem
      · rw [if_neg hcond] at h; exact absurd h (by simp)

theorem tryEmail_extend {cs con rest : List Char}
    (h : tryEmail cs = some (con, rest)) (ys : List Char) :
    (tryEmail (con ++ ys)).isSome = true := by
  obtain ⟨-, loc, pre, tld, hcon, hlocne, hloc, hprene, hpre, htld, hlen⟩ :=
    tryEmail_shape h
  subst hcon
  have hassoc : (loc ++ '@' :: (pre ++ '.' :: tld)) ++ ys
      = loc ++ '@' :: (pre ++ '.' :: (tld ++ ys)) := by simp
  rw [hassoc]
  have hAt : isLocalChar '@' = false := by decide
  unfold tryEmail
  rw [dropWhile_stop _ _ hloc hAt, takeWhile_stop _ _ hloc hAt]
  dsimp only
  rw [if_pos ⟨rfl, hlocne⟩]
  have hdomall : ∀ c ∈ pre ++ '.' :: tld, isDomainChar c = true := by
    intro c hc
    rcases List.mem_append.mp hc with hc1 | hc2
    · exact hpre c hc1
    · rcases List.mem_cons.mp hc2 with rfl | hc3
      · decide
      · have := htld c hc3
        simp [isDomainChar, this]
  obtain ⟨p0, pre1, rfl⟩ : ∃ p0 pre1, pre = p0 :: pre1 := by
    cases pre with
    | nil => exact absurd rfl hprene
    | cons p0 pre1 => exact ⟨p0, pre1, rfl⟩
  rw [show ((p0 :: pre1 : List Char) ++ '.' :: (tld ++ ys))
      = ((p0 :: pre1) ++ '.' :: tld) ++ ys by simp]
  rw [takeWhile_all_append isDomainChar ys hdomall]
  simp only [List.cons_append, List.append_assoc]
  have hsplit :
      (domSplit (pre1 ++ '.' :: (tld ++ ys.takeWhile isDomainChar))).isSome
        = true := domSplit_isSome pre1 tld _ hlen htld
  cases hds : domSplit (pre1 ++ '.' :: (tld ++ ys.takeWhile isDomainChar)) with
  | none => rw [hds] at hsplit; exact absurd hsplit (by simp)
  | some pr => obtain ⟨d1, domRest⟩ := pr; simp

theorem tryEmail_no_lt {cs con rest : List Char}
    (h : tryEmail cs = some (con, rest)) : '<' ∉ con := by
  obtain ⟨-, loc, pre, tld, hcon, -, hloc, -, hpre, htld, -⟩ := tryEmail_shape h
  subst hcon
  intro hmem
  rcases List.mem_append.mp hmem with h1 | h2
  · have := hloc _ h1; exact absurd this (by decide)
  · rcases List.mem_cons.mp h2 with h3 | h4
    · exact absurd h3 (by decide)
    · rcases List.mem_append.mp h4 with h5 | h6
      · have := hpre _ h5; exact absurd this (by decide)
      · rcases List.mem_cons.mp h6 with h7 | h8
        · exact absurd h7 (by decide)
        · have := htld _ h8; exact absurd this (by decide)

theorem tryEmail_stop_none {a : List Char} {x : Char} (r : List Char)
    (h : ∀ c ∈ a, isLocalChar c = true) (hx : isLocalChar x = false)
    (hxa : x ≠ '@') :
    tryEmail (a ++ x :: r) = none := by
  unfold tryEmail
  rw [dropWhile_stop _ _ h hx]
  dsimp only
  rw [if_neg (fun hc => hxa hc.1)]

theorem goodTail_none {rest : List Char} (hgt : GoodTail rest) :
    tryEmail rest = none := by
  rcases hgt with rfl | ⟨r, rfl⟩
  · rfl
  · exact tryEmail_stop_none (a := []) r (by simp) (by decide) (by decide)

theorem tokenSafe {t : List Char} (hat : '@' ∉ t) {u : List Char} {z : Char}
    (ht : t = u ++ [z]) (hz : isLocalChar z = false) :
    ∀ za r, za <:+ t → za ≠ [] → tryEmail (za ++ r) = none := by
  intro za r hsuf hne
  have hzin : z ∈ za := by
    obtain ⟨b, hb⟩ := hsuf
    have hza : za = za.dropLast ++ [za.getLast hne] :=
      (List.dropLast_append_getLast hne).symm
    have hlast : za.getLast hne = z := by
      have h2 : (b ++ za.dropLast) ++ [za.getLast hne] = u ++ [z] := by
        rw [List.append_assoc, ← hza, hb, ht]
      have hlen : (b ++ za.dropLast).length = u.length := by
        have h3 := congrArg List.length h2
        simp only [List.length_append, List.length_cons] at h3
        simp only [List.length_append]
        omega
      have := (List.append_inj h2 hlen).2
      simpa using this
    rw [hza, hlast]; simp
  have hdwne : za.dropWhile isLocalChar ≠ [] := by
    intro hnil
    have hall := List.dropWhile_eq_nil_iff.mp hnil
    exact absurd (hall z hzin) (by simp [hz])
  cases hdw : za.dropWhile isLocalChar with
  | nil => exact absurd hdw hdwne
  | cons x b2 =>
      have hxloc : isLocalChar x = false := dropWhile_head_neg hdw
      have hxin : x ∈ za := by
        have : x ∈ za.dropWhile isLocalChar := by rw [hdw]; simp
        exact (List.dropWhile_suffix isLocalChar).subset this
      have hxat : x ≠ '@' := by
        intro hx
        subst hx
        exact hat (hsuf.subset hxin)
      have hza2 : za = za.takeWhile isLocalChar ++ x :: b2 := by
        conv_lhs => rw [← List.takeWhile_append_dropWhile isLocalChar za]
        rw [hdw]
      rw [hza2, List.append_assoc, List.cons_append]
      exact tryEmail_stop_none _ (fun c hc => List.mem_takeWhile_imp hc) hxloc hxat

theorem tryEmail_con_ne_nil {cs con rest : List Char}
    (h : tryEmail cs = some (con, rest)) : con ≠ [] := by
  obtain ⟨-, loc, pre, tld, hcon, hlocne, -⟩ := tryEmail_shape h
  subst hcon
  simp [hlocne]

/-! #### The email scanner and its key invariant -/

theorem prefRel_email : ∀ (fuel : Nat) (cs : List Char), cs.length ≤ fuel →
    PrefRel cs (redactEmailGo fuel cs) := by
  intro fuel
  induction fuel with
  | zero =>
      intro cs hlen
      obtain rfl : cs = [] := List.length_eq_zero.mp (Nat.le_zero.mp hlen)
      exact Or.inl rfl
  | succ fuel ih =>
      intro cs hlen
      cases cs with
      | nil => exact Or.inl rfl
      | cons c cs =>
          cases htry : tryEmail (c :: cs) with
          | some pr =>
              obtain ⟨con, rest0⟩ := pr
              have hout : redactEmailGo (fuel + 1) (c :: cs)
                  = emailTok ++ redactEmailGo fuel rest0 := by
                simp only [redactEmailGo, htry]
              refine Or.inr ⟨[], c :: cs,
                "REDACTED: EMAIL>".data ++ redactEmailGo fuel rest0, rfl, ?_⟩
              rw [hout, show emailTok = '<' :: "REDACTED: EMAIL>".data by decide]
              simp
          | none =>
              have hout : redactEmailGo (fuel + 1) (c :: cs)
                  = c :: redactEmailGo fuel cs := by
                simp only [redactEmailGo, htry]
              rw [hout]
              rcases ih cs (by simpa using Nat.lt_succ_iff.mp hlen) with
                heq | ⟨a, r1, r2, hv, hoeq⟩
              · exact Or.inl (by rw [heq])
              · exact Or.inr ⟨c :: a, r1, r2, by simp [hv], by simp [hoeq]⟩

theorem con_prefix_of_no_lt {b z con t : List Char}
    (hX : b ++ z = con ++ t) (hz : z = [] ∨ ∃ w, z = '<' :: w)
    (hlt : '<' ∉ con) : con <+: b := by
  rcases hz with rfl | ⟨w, rfl⟩
  · exact ⟨t, by simpa using hX.symm⟩
  · by_cases hlen : con.length ≤ b.length
    · have h1 : con <+: b ++ '<' :: w := ⟨t, hX.symm⟩
      exact List.prefix_of_prefix_length_le h1 (List.prefix_append _ _) hlen
    · exfalso
      rcases List.append_eq_append_iff.mp hX with ⟨a2, ha2, hza⟩ | ⟨c2, hc2, htc⟩
      · -- con = b ++ a2  and '<' :: w = a2 ++ t
        cases a2 with
        | nil =>
            rw [ha2] at hlen
            simp at hlen
        | cons x a2 =>
            simp only [List.cons_append] at hza
            injection hza with h1 h2
            subst h1
            exact hlt (by rw [ha2]; simp)
      · rw [hc2] at hlen
        simp at hlen

theorem crossNone {u v out rest : List Char}
    (hnone : tryEmail (u ++ v) = none) (hpr : PrefRel v out)
    (hgt : GoodTail rest) :
    tryEmail (u ++ (out ++ rest)) = none := by
  cases htry : tryEmail (u ++ (out ++ rest)) with
  | none => rfl
  | some pr =>
      exfalso
      obtain ⟨con, t⟩ := pr
      have hX : u ++ (out ++ rest) = con ++ t := (tryEmail_shape htry).1
      have hlt := tryEmail_no_lt htry
      rcases hpr with rfl | ⟨a, r1, r2, rfl, rfl⟩
      · -- out = v
        have hX2 : (u ++ out) ++ rest = con ++ t := by
          rw [List.append_assoc]; exact hX
        have hpre : con <+: u ++ out := con_prefix_of_no_lt hX2 hgt hlt
        obtain ⟨ys, hys⟩ := hpre
        have hiss := tryEmail_extend htry ys
        rw [hys] at hiss
        rw [hnone] at hiss
        exact absurd hiss (by simp)
      · -- v = a ++ r1, out = a ++ '<' :: r2
        have hX2 : (u ++ a) ++ ('<' :: (r2 ++ rest)) = con ++ t := by
          rw [← hX]; simp
        have hpre : con <+: u ++ a :=
          con_prefix_of_no_lt hX2 (Or.inr ⟨r2 ++ rest, rfl⟩) hlt
        obtain ⟨ys, hys⟩ := hpre
        have hfull : con <+: u ++ (a ++ r1) := by
          refine ⟨ys ++ r1, ?_⟩
          rw [← List.append_assoc, hys, List.append_assoc]
        obtain ⟨ys2, hys2⟩ := hfull
        have hiss := tryEmail_extend htry ys2
        rw [hys2] at hiss
        rw [hnone] at hiss
        exact absurd hiss (by simp)

theorem emailScan_safe : ∀ (fuel : Nat) (cs : List Char), cs.length ≤ fuel →
    ∀ zs rest, zs <:+ redactEmailGo fuel cs → GoodTail rest →
      tryEmail (zs ++ rest) = none := by
  intro fuel
  induction fuel with
  | zero =>
      intro cs hlen zs rest hsuf hgt
      obtain rfl : cs = [] := List.length_eq_zero.mp (Nat.le_zero.mp hlen)
      obtain rfl : zs = [] := List.suffix_nil.mp (by simpa [redactEmailGo] using hsuf)
      simpa using goodTail_none hgt
  | succ fuel ih =>
      intro cs hlen zs rest hsuf hgt
      cases cs with
      | nil =>
          obtain rfl : zs = [] := List.suffix_nil.mp (by simpa [redactEmailGo] using hsuf)
          simpa using goodTail_none hgt
      | cons c cs =>
          cases htry : tryEmail (c :: cs) with
          | some pr =>
              obtain ⟨con, rest0⟩ := pr
              have hout : redactEmailGo (fuel + 1) (c :: cs)
                  = emailTok ++ redactEmailGo fuel rest0 := by
                simp only [redactEmailGo, htry]
              rw [hout] at hsuf
              rcases suffix_split hsuf with hzs | ⟨za, hza, hzane, rfl⟩
              · have hlen0 : rest0.length ≤ fuel := by
                  have hsplit := (tryEmail_shape htry).1
                  have hconne := tryEmail_con_ne_nil htry
                  have h1 := congrArg List.length hsplit
                  simp only [List.length_cons, List.length_append] at h1
                  have h2 : 1 ≤ con.length := by
                    cases con with
                    | nil => exact absurd rfl hconne
                    | cons x l => simp
                  simp only [List.length_cons] at hlen
                  omega
                exact ih rest0 hlen0 zs rest hzs hgt
              · rw [List.append_assoc]
                exact tokenSafe (t := emailTok) (by decide)
                  (u := "<REDACTED: EMAIL".data) (z := '>') (by decide) (by decide)
                  za _ hza hzane
          | none =>
              have hout : redactEmailGo (fuel + 1) (c :: cs)
                  = c :: redactEmailGo fuel cs := by
                simp only [redactEmailGo, htry]
              rw [hout] at hsuf
              rcases List.suffix_cons_iff.mp hsuf with rfl | hzs
              · have hpr := prefRel_email fuel cs (by
                  simp only [List.length_cons] at hlen; omega)
                have hnone2 : tryEmail ([c] ++ cs) = none := by simpa using htry
                have hres := crossNone hnone2 hpr hgt
                simpa using hres
              · exact ih cs (by simp only [List.length_cons] at hlen; omega)
                  zs rest hzs hgt

theorem redactEmailGo_fix : ∀ (fuel : Nat) (cs : List Char),
    (∀ zs, zs <:+ cs → tryEmail zs = none) → redactEmailGo fuel cs = cs := by
  intro fuel
  induction fuel with
  | zero => intro cs h; cases cs <;> rfl
  | succ fuel ih =>
      intro cs h
      cases cs with
      | nil => rfl
      | cons c cs =>
          have hself : tryEmail (c :: cs) = none := h _ (List.suffix_refl _)
          simp only [redactEmailGo, hself]
          rw [ih cs (fun zs hzs => h zs (hzs.trans (List.suffix_cons c cs)))]

theorem emailCtxSafe_suffix {xs ys : List Char} (h : EmailCtxSafe xs)
    (hsuf : ys <:+ xs) : EmailCtxSafe ys :=
  fun zs rest hzs hgt => h zs rest (hzs.trans hsuf) hgt

/-! #### The digit passes preserve the email-safety invariant -/

theorem prefRel_digits (pred : List Char → Bool) (tok : List Char)
    {w : List Char} (htok : tok = '<' :: w) :
    ∀ (cs run : List Char), PrefRel (run ++ cs) (redactDigitsGo pred tok run cs) := by
  intro cs
  induction cs with
  | nil =>
      intro run
      rw [List.append_nil]
      show PrefRel run (flushRun pred tok run)
      by_cases h1 : run = []
      · subst h1
        exact Or.inl (by simp [flushRun])
      · by_cases h2 : pred run
        · have : flushRun pred tok run = tok := by simp [flushRun, h1, h2]
          rw [this, htok]
          exact Or.inr ⟨[], run, w, by simp, by simp⟩
        · exact Or.inl (by simp [flushRun, h1, h2])
  | cons c cs ih =>
      intro run
      by_cases hc : c.isDigit
      · have hout : redactDigitsGo pred tok run (c :: cs)
            = redactDigitsGo pred tok (run ++ [c]) cs := by
          simp [redactDigitsGo, hc]
        rw [hout, show run ++ c :: cs = (run ++ [c]) ++ cs by simp]
        exact ih (run ++ [c])
      · have hout : redactDigitsGo pred tok run (c :: cs)
            = flushRun pred tok run ++ c :: redactDigitsGo pred tok [] cs := by
          simp [redactDigitsGo, hc]
        rw [hout]
        by_cases h1 : run = []
        · subst h1
          simp only [flushRun, if_pos rfl, List.nil_append]
          rcases ih [] with heq | ⟨a, r1, r2, hv, hoeq⟩
          · exact Or.inl (by rw [heq]; simp)
          · simp only [List.nil_append] at hv hoeq
            exact Or.inr ⟨c :: a, r1, r2, by simp [hv], by simp [hoeq]⟩
        · by_cases h2 : pred run
          · have hfl : flushRun pred tok run = tok := by simp [flushRun, h1, h2]
            refine Or.inr ⟨[], run ++ c :: cs,
              w ++ c :: redactDigitsGo pred tok [] cs, by simp, ?_⟩
            rw [hfl, htok]
            simp
          · have hfl : flushRun pred tok run = run := by simp [flushRun, h1, h2]
            rw [hfl]
            rcases ih [] with heq | ⟨a, r1, r2, hv, hoeq⟩
            · exact Or.inl (by rw [heq]; simp)
            · simp only [List.nil_append] at hv hoeq
              refine Or.inr ⟨run ++ c :: a, r1, r2, ?_, ?_⟩
              · rw [hv]; simp
              · rw [hoeq]; simp

theorem digitPass_emailSafe (pred : List Char → Bool) (tok : List Char)
    {w : List Char} (htok : tok = '<' :: w)
    (htokSafe : ∀ za r, za <:+ tok → za ≠ [] → tryEmail (za ++ r) = none) :
    ∀ (cs run : List Char), EmailCtxSafe (run ++ cs) →
      EmailCtxSafe (redactDigitsGo pred tok run cs) := by
  intro cs
  induction cs with
  | nil =>
      intro run hctx
      show EmailCtxSafe (flushRun pred tok run)
      by_cases h1 : run = []
      · subst h1
        intro zs rest hzs hgt
        obtain rfl : zs = [] := List.suffix_nil.mp (by simpa [flushRun] using hzs)
        simpa using goodTail_none hgt
      · by_cases h2 : pred run
        · have hfl : flushRun pred tok run = tok := by simp [flushRun, h1, h2]
          rw [hfl]
          intro zs rest hzs hgt
          rcases List.eq_nil_or_concat zs with rfl | ⟨l, b, rfl⟩
          · simpa using goodTail_none hgt
          · exact htokSafe _ rest hzs (by simp)
        · have hfl : flushRun pred tok run = run := by simp [flushRun, h1, h2]
          rw [hfl]
          exact emailCtxSafe_suffix hctx (by simp)
  | cons c cs ih =>
      intro run hctx
      by_cases hc : c.isDigit
      · have hout : redactDigitsGo pred tok run (c :: cs)
            = redactDigitsGo pred tok (run ++ [c]) cs := by
          simp [redactDigitsGo, hc]
        rw [hout]
        exact ih (run ++ [c]) (by rw [show (run ++ [c]) ++ cs = run ++ c :: cs by simp]; exact hctx)
      · have hout : redactDigitsGo pred tok run (c :: cs)
            = flushRun pred tok run ++ c :: redactDigitsGo pred tok [] cs := by
          simp [redactDigitsGo, hc]
        rw [hout]
        have hctxcs : EmailCtxSafe cs :=
          emailCtxSafe_suffix hctx ((List.suffix_cons c cs).trans (by simp))
        have hrec : EmailCtxSafe (redactDigitsGo pred tok [] cs) :=
          ih [] (by simpa using hctxcs)
        have hprRec : PrefRel cs (redactDigitsGo pred tok [] cs) := by
          have := prefRel_digits pred tok htok cs []
          simpa using this
        intro zs rest hzs hgt
        rcases suffix_split hzs with hz1 | ⟨za, hza, hzane, rfl⟩
        · -- zs <:+ c :: recOut
          rcases List.suffix_cons_iff.mp hz1 with rfl | hz2
          · -- zs = c :: recOut
            have hnone2 : tryEmail ([c] ++ cs) = none := by
              have := hctx (c :: cs) [] (by
                have : c :: cs <:+ run ++ c :: cs := by
                  exact (List.suffix_refl _).trans ⟨run, rfl⟩
                exact this) (Or.inl rfl)
              simpa using this
            have hres := crossNone hnone2 hprRec hgt
            simpa using hres
          · exact hrec zs rest hz2 hgt
        · -- zs = za ++ (c :: recOut), za nonempty suffix of the flushed run
          by_cases h1 : run = []
          · subst h1
            simp only [flushRun, if_pos rfl] at hza
            exact absurd (List.suffix_nil.mp hza) hzane
          · by_cases h2 : pred run
            · have hfl : flushRun pred tok run = tok := by simp [flushRun, h1, h2]
              rw [hfl] at hza
              rw [List.append_assoc]
              exact htokSafe za _ hza hzane
            · have hfl : flushRun pred tok run = run := by simp [flushRun, h1, h2]
              rw [hfl] at hza
              have hnone2 : tryEmail ((za ++ [c]) ++ cs) = none := by
                have hsufza : za ++ c :: cs <:+ run ++ c :: cs :=
                  suffix_append_same (c :: cs) hza
                have := hctx (za ++ c :: cs) [] hsufza (Or.inl rfl)
                simpa using this
              have hres := crossNone hnone2 hprRec hgt
              simpa [List.append_assoc] using hres

theorem cardTok_safe :
    ∀ za r, za <:+ cardTok → za ≠ [] → tryEmail (za ++ r) = none :=
  tokenSafe (t := cardTok) (by decide)
    (u := "<REDACTED: CREDIT_CARD".data) (z := '>') (by decide) (by decide)

theorem ssnTok_safe :
    ∀ za r, za <:+ ssnTok → za ≠ [] → tryEmail (za ++ r) = none :=
  tokenSafe (t := ssnTok) (by decide)
    (u := "<REDACTED: SSN".data) (z := '>') (by decide) (by decide)

theorem sanitizeChars_emailSafe (cs : List Char) :
    EmailCtxSafe (sanitizeChars cs) := by
  have h1 : EmailCtxSafe (redactEmails cs) := fun zs rest hzs hgt =>
    emailScan_safe cs.length cs le_rfl zs rest hzs hgt
  have h2 : EmailCtxSafe (redactCards (redactEmails cs)) := by
    have hstep := digitPass_emailSafe isCardRun cardTok
      (w := "REDACTED: CREDIT_CARD>".data) (by decide) cardTok_safe
      (redactEmails cs) []
    exact hstep (by simpa using h1)
  have h3 : EmailCtxSafe (redactSSNs (redactCards (redactEmails cs))) := by
    have hstep := digitPass_emailSafe isSsnRun ssnTok
      (w := "REDACTED: SSN>".data) (by decide) ssnTok_safe
      (redactCards (redactEmails cs)) []
    exact hstep (by simpa using h2)
  exact h3

theorem redactEmails_fix_of_safe {t : List Char} (h : EmailCtxSafe t) :
    redactEmails t = t :=
  redactEmailGo_fix t.length t (fun zs hzs => by
    simpa using h zs [] hzs (Or.inl rfl))

/-! #### Digit runs of pass outputs -/

theorem runOk_nil (pred : List Char → Bool) : runOk pred [] = true := by
  simp [runOk]

theorem flushRun_id {pred : List Char → Bool} (tok : List Char)
    {run : List Char} (h : runOk pred run = true) :
    flushRun pred tok run = run := by
  by_cases h1 : run = []
  · subst h1; simp [flushRun]
  · have h2 : pred run = false := by
      rcases Bool.or_eq_true _ _ |>.mp h with h3 | h3
      · exact absurd (List.isEmpty_iff.mp h3) h1
      · simpa using h3
    simp [flushRun, h1, h2]

theorem runsFailGo_acc (pred : List Char → Bool) :
    ∀ (d run z : List Char), (∀ c ∈ d, c.isDigit = true) →
      runsFailGo pred run (d ++ z) = runsFailGo pred (run ++ d) z := by
  intro d
  induction d with
  | nil => intro run z h; simp
  | cons c d ih =>
      intro run z h
      have hc : c.isDigit = true := h c (by simp)
      show runsFailGo pred run (c :: (d ++ z)) = _
      simp only [runsFailGo]
      rw [if_pos hc, ih (run ++ [c]) z (fun x hx => h x (by simp [hx]))]
      congr 1
      simp

theorem redactDigitsGo_acc (pred : List Char → Bool) (tok : List Char) :
    ∀ (d run z : List Char), (∀ c ∈ d, c.isDigit = true) →
      redactDigitsGo pred tok run (d ++ z) = redactDigitsGo pred tok (run ++ d) z := by
  intro d
  induction d with
  | nil => intro run z h; simp
  | cons c d ih =>
      intro run z h
      have hc : c.isDigit = true := h c (by simp)
      show redactDigitsGo pred tok run (c :: (d ++ z)) = _
      simp only [redactDigitsGo]
      rw [if_pos hc, ih (run ++ [c]) z (fun x hx => h x (by simp [hx]))]
      congr 1
      simp

theorem runsFailGo_skip (pred : List Char → Bool) :
    ∀ (u z : List Char), (∀ c ∈ u, c.isDigit = false) →
      runsFailGo pred [] (u ++ z) = runsFailGo pred [] z := by
  intro u
  induction u with
  | nil => intro z h; rfl
  | cons c u ih =>
      intro z h
      have hc : c.isDigit = false := h c (by simp)
      show runsFailGo pred [] (c :: (u ++ z)) = _
      simp only [runsFailGo]
      rw [if_neg (by simp [hc]), runOk_nil]
      simp only [Bool.true_and]
      exact ih z (fun x hx => h x (by simp [hx]))

theorem redactDigitsGo_fix (pred : List Char → Bool) (tok : List Char) :
    ∀ (cs run : List Char), runsFailGo pred run cs = true →
      redactDigitsGo pred tok run cs = run ++ cs := by
  intro cs
  induction cs with
  | nil =>
      intro run h
      show flushRun pred tok run = run ++ []
      rw [List.append_nil]
      exact flushRun_id tok h
  | cons c cs ih =>
      intro run h
      by_cases hc : c.isDigit
      · have h2 : runsFailGo pred (run ++ [c]) cs = true := by
          show _ = true
          rw [show runsFailGo pred (run ++ [c]) cs
              = runsFailGo pred run (c :: cs) by
            simp only [runsFailGo]; rw [if_pos hc]]
          exact h
        show redactDigitsGo pred tok run (c :: cs) = _
        simp only [redactDigitsGo]
        rw [if_pos hc, ih (run ++ [c]) h2]
        simp
      · have h2 : runOk pred run = true ∧ runsFailGo pred [] cs = true := by
          have h3 : runsFailGo pred run (c :: cs)
              = (runOk pred run && runsFailGo pred [] cs) := by
            simp only [runsFailGo]; rw [if_neg hc]
          rw [h3] at h
          exact ⟨(Bool.and_eq_true _ _ |>.mp h).1, (Bool.and_eq_true _ _ |>.mp h).2⟩
        show redactDigitsGo pred tok run (c :: cs) = _
        simp only [redactDigitsGo]
        rw [if_neg hc, flushRun_id tok h2.1, ih [] h2.2]
        simp

theorem redactDigitsGo_self_ok (pred : List Char → Bool) (tok : List Char)
    (htoknd : ∀ c ∈ tok, c.isDigit = false) :
    ∀ (cs run : List Char), (∀ c ∈ run, c.isDigit = true) →
      runsFailGo pred [] (redactDigitsGo pred tok run cs) = true := by
  intro cs
  induction cs with
  | nil =>
      intro run hrun
      show runsFailGo pred [] (flushRun pred tok run) = true
      by_cases h1 : run = []
      · subst h1; simp [flushRun]; rfl
      · by_cases h2 : pred run
        · have hfl : flushRun pred tok run = tok := by simp [flushRun, h1, h2]
          rw [hfl]
          have := runsFailGo_skip pred tok [] htoknd
          simpa using this
        · have hfl : flushRun pred tok run = run := by simp [flushRun, h1, h2]
          rw [hfl]
          have hacc := runsFailGo_acc pred run [] [] hrun
          simp only [List.append_nil, List.nil_append] at hacc
          rw [hacc]
          show runOk pred run = true
          simp [runOk, h1, h2]
  | cons c cs ih =>
      intro run hrun
      by_cases hc : c.isDigit
      · show runsFailGo pred [] (redactDigitsGo pred tok run (c :: cs)) = true
        simp only [redactDigitsGo]
        rw [if_pos hc]
        exact ih (run ++ [c]) (by
          intro x hx
          rcases List.mem_append.mp hx with hx1 | hx2
          · exact hrun x hx1
          · simpa using List.mem_singleton.mp hx2 ▸ hc)
      · show runsFailGo pred [] (redactDigitsGo pred tok run (c :: cs)) = true
        simp only [redactDigitsGo]
        rw [if_neg hc]
        by_cases h1 : run = []
        · subst h1
          simp only [flushRun, if_pos rfl, List.nil_append]
          show runsFailGo pred [] (c :: redactDigitsGo pred tok [] cs) = true
          simp only [runsFailGo]
          rw [if_neg (by simp [hc]), runOk_nil]
          simp only [Bool.true_and]
          exact ih [] (by simp)
        · by_cases h2 : pred run
          · have hfl : flushRun pred tok run = tok := by simp [flushRun, h1, h2]
            rw [hfl, runsFailGo_skip pred tok _ htoknd]
            show runsFailGo pred [] (c :: redactDigitsGo pred tok [] cs) = true
            simp only [runsFailGo]
            rw [if_neg (by simp [hc]), runOk_nil]
            simp only [Bool.true_and]
            exact ih [] (by simp)
          · have hfl : flushRun pred tok run = run := by simp [flushRun, h1, h2]
            rw [hfl, runsFailGo_acc pred run [] _ hrun]
            simp only [List.nil_append]
            show runsFailGo pred run (c :: redactDigitsGo pred tok [] cs) = true
            simp only [runsFailGo]
            rw [if_neg hc]
            have hok : runOk pred run = true := by simp [runOk, h1, h2]
            rw [hok]
            simp only [Bool.true_and]
            exact ih [] (by simp)

theorem redactDigitsGo_other_ok (P pred : List Char → Bool) (tok : List Char)
    (htoknd : ∀ c ∈ tok, c.isDigit = false) :
    ∀ (cs run : List Char), (∀ c ∈ run, c.isDigit = true) →
      runsFailGo P run cs = true →
      runsFailGo P [] (redactDigitsGo pred tok run cs) = true := by
  intro cs
  induction cs with
  | nil =>
      intro run hrun h
      show runsFailGo P [] (flushRun pred tok run) = true
      by_cases h1 : run = []
      · subst h1; simp [flushRun]; rfl
      · by_cases h2 : pred run
        · have hfl : flushRun pred tok run = tok := by simp [flushRun, h1, h2]
          rw [hfl]
          have := runsFailGo_skip P tok [] htoknd
          simpa using this
        · have hfl : flushRun pred tok run = run := by simp [flushRun, h1, h2]
          rw [hfl]
          have hacc := runsFailGo_acc P run [] [] hrun
          simp only [List.append_nil, List.nil_append] at hacc
          rw [hacc]
          exact h
  | cons c cs ih =>
      intro run hrun h
      by_cases hc : c.isDigit
      · have h2 : runsFailGo P (run ++ [c]) cs = true := by
          rw [show runsFailGo P (run ++ [c]) cs = runsFailGo P run (c :: cs) by
            simp only [runsFailGo]; rw [if_pos hc]]
          exact h
        show runsFailGo P [] (redactDigitsGo pred tok run (c :: cs)) = true
        simp only [redactDigitsGo]
        rw [if_pos hc]
        exact ih (run ++ [c]) (by
          intro x hx
          rcases List.mem_append.mp hx with hx1 | hx2
          · exact hrun x hx1
          · simpa using List.mem_singleton.mp hx2 ▸ hc) h2
      · have h2 : runOk P run = true ∧ runsFailGo P [] cs = true := by
          have h3 : runsFailGo P run (c :: cs)
              = (runOk P run && runsFailGo P [] cs) := by
            simp only [runsFailGo]; rw [if_neg hc]
          rw [h3] at h
          exact ⟨(Bool.and_eq_true _ _ |>.mp h).1, (Bool.and_eq_true _ _ |>.mp h).2⟩
        show runsFailGo P [] (redactDigitsGo pred tok run (c :: cs)) = true
        simp only [redactDigitsGo]
        rw [if_neg hc]
        by_cases h1 : run = []
        · subst h1
          simp only [flushRun, if_pos rfl, List.nil_append]
          show runsFailGo P [] (c :: redactDigitsGo pred tok [] cs) = true
          simp only [runsFailGo]
          rw [if_neg (by simp [hc]), runOk_nil]
          simp only [Bool.true_and]
          exact ih [] (by simp) h2.2
        · by_cases hp2 : pred run
          · have hfl : flushRun pred tok run = tok := by simp [flushRun, h1, hp2]
            rw [hfl, runsFailGo_skip P tok _ htoknd]
            show runsFailGo P [] (c :: redactDigitsGo pred tok [] cs) = true
            simp only [runsFailGo]
            rw [if_neg (by simp [hc]), runOk_nil]
            simp only [Bool.true_and]
            exact ih [] (by simp) h2.2
          · have hfl : flushRun pred tok run = run := by simp [flushRun, h1, hp2]
            rw [hfl, runsFailGo_acc P run [] _ hrun]
            simp only [List.nil_append]
            show runsFailGo P run (c :: redactDigitsGo pred tok [] cs) = true
            simp only [runsFailGo]
            rw [if_neg hc, h2.1]
            simp only [Bool.true_and]
            exact ih [] (by simp) h2.2

theorem sanitizeChars_idem (cs : List Char) :
    sanitizeChars (sanitizeChars cs) = sanitizeChars cs := by
  have hsafe : EmailCtxSafe (sanitizeChars cs) := sanitizeChars_emailSafe cs
  have hemail : redactEmails (sanitizeChars cs) = sanitizeChars cs :=
    redactEmails_fix_of_safe hsafe
  have hcardtok : ∀ c ∈ cardTok, c.isDigit = false := by decide
  have hssntok : ∀ c ∈ ssnTok, c.isDigit = false := by decide
  have h1 : runsFailGo isCardRun [] (redactCards (redactEmails cs)) = true :=
    redactDigitsGo_self_ok isCardRun cardTok hcardtok (redactEmails cs) []
      (by simp)
  have h2 : runsFailGo isCardRun [] (sanitizeChars cs) = true :=
    redactDigitsGo_other_ok isCardRun isSsnRun ssnTok hssntok
      (redactCards (redactEmails cs)) [] (by simp) h1
  have h3 : runsFailGo isSsnRun [] (sanitizeChars cs) = true :=
    redactDigitsGo_self_ok isSsnRun ssnTok hssntok
      (redactCards (redactEmails cs)) [] (by simp)
  have hcard : redactCards (sanitizeChars cs) = sanitizeChars cs := by
    have := redactDigitsGo_fix isCardRun cardTok (sanitizeChars cs) [] h2
    simpa [redactCards] using this
  have hssn : redactSSNs (sanitizeChars cs) = sanitizeChars cs := by
    have := redactDigitsGo_fix isSsnRun ssnTok (sanitizeChars cs) [] h3
    simpa [redactSSNs] using this
  show redactSSNs (redactCards (redactEmails (sanitizeChars cs)))
      = sanitizeChars cs
  rw [hemail, hcard, hssn]

/-! #### Digit-run surgery for boundary-delimited runs -/

theorem redactEmails_fix_of_cleanB {s : List Char} (h : emailCleanB s = true) :
    redactEmails s = s :=
  redactEmailGo_fix s.length s (fun zs hzs => by
    have h2 := List.all_eq_true.mp h zs ((List.mem_tails _ _).mpr hzs)
    simpa [Option.isNone_iff_eq_none] using h2)

theorem redactDigitsGo_split_last (pred : List Char → Bool) (tok : List Char) :
    ∀ (p0 : List Char) (x : Char) (z run : List Char), x.isDigit = false →
      redactDigitsGo pred tok run ((p0 ++ [x]) ++ z)
        = redactDigitsGo pred tok run (p0 ++ [x])
          ++ redactDigitsGo pred tok [] z := by
  intro p0
  induction p0 with
  | nil =>
      intro x z run hx
      show redactDigitsGo pred tok run (x :: z)
          = redactDigitsGo pred tok run (x :: []) ++ _
      simp [redactDigitsGo, hx, flushRun]
  | cons c p0 ih =>
      intro x z run hx
      by_cases hc : c.isDigit
      · show redactDigitsGo pred tok run (c :: ((p0 ++ [x]) ++ z)) = _
        simp only [redactDigitsGo, hc, if_true]
        exact ih x z (run ++ [c]) hx
      · show redactDigitsGo pred tok run (c :: ((p0 ++ [x]) ++ z)) = _
        simp only [redactDigitsGo, hc, if_false, Bool.false_eq_true]
        rw [ih x z [] hx]
        simp

theorem redactDigitsGo_last (pred : List Char → Bool) (tok : List Char) :
    ∀ (p0 : List Char) (x : Char) (run : List Char), x.isDigit = false →
      ∃ l, redactDigitsGo pred tok run (p0 ++ [x]) = l ++ [x] := by
  intro p0
  induction p0 with
  | nil =>
      intro x run hx
      refine ⟨flushRun pred tok run, ?_⟩
      show redactDigitsGo pred tok run (x :: []) = _
      simp [redactDigitsGo, hx, flushRun]
  | cons c p0 ih =>
      intro x run hx
      by_cases hc : c.isDigit
      · obtain ⟨l, hl⟩ := ih x (run ++ [c]) hx
        refine ⟨l, ?_⟩
        show redactDigitsGo pred tok run (c :: (p0 ++ [x])) = _
        simp only [redactDigitsGo, hc, if_true]
        exact hl
      · obtain ⟨l, hl⟩ := ih x [] hx
        refine ⟨flushRun pred tok run ++ c :: l, ?_⟩
        show redactDigitsGo pred tok run (c :: (p0 ++ [x])) = _
        simp only [redactDigitsGo, hc, if_false, Bool.false_eq_true]
        rw [hl]
        simp

theorem redactDigitsGo_run (pred : List Char → Bool) (tok : List Char)
    (d q : List Char) (hd : ∀ c ∈ d, c.isDigit = true) (hdne : d ≠ [])
    (hq : q = [] ∨ ∃ c q0, q = c :: q0 ∧ c.isDigit = false) :
    redactDigitsGo pred tok [] (d ++ q)
      = (if pred d then tok else d) ++ redactDigitsGo pred tok [] q := by
  rw [redactDigitsGo_acc pred tok d [] q hd]
  simp only [List.nil_append]
  have hnil : redactDigitsGo pred tok [] ([] : List Char) = [] := rfl
  rcases hq with rfl | ⟨c, q0, rfl, hc⟩
  · show flushRun pred tok d = _
    rw [hnil, List.append_nil]
    simp [flushRun, hdne]
  · have hstep : redactDigitsGo pred tok d (c :: q0)
        = flushRun pred tok d ++ c :: redactDigitsGo pred tok [] q0 := by
      simp only [redactDigitsGo, hc, if_false, Bool.false_eq_true]
    have hq0 : redactDigitsGo pred tok [] (c :: q0)
        = c :: redactDigitsGo pred tok [] q0 := by
      simp only [redactDigitsGo, hc, if_false, Bool.false_eq_true]
      rfl
    rw [hstep, hq0]
    simp [flushRun, hdne]

theorem redactDigitsGo_surgery (pred : List Char → Bool) (tok : List Char)
    (p d q : List Char)
    (hp : p = [] ∨ ∃ p0 c, p = p0 ++ [c] ∧ c.isDigit = false)
    (hq : q = [] ∨ ∃ c q0, q = c :: q0 ∧ c.isDigit = false)
    (hd : ∀ c ∈ d, c.isDigit = true) (hdne : d ≠ []) :
    redactDigitsGo pred tok [] (p ++ d ++ q)
      = redactDigitsGo pred tok [] p ++ (if pred d then tok else d)
        ++ redactDigitsGo pred tok [] q := by
  rcases hp with rfl | ⟨p0, c, rfl, hc⟩
  · simp only [List.nil_append]
    rw [redactDigitsGo_run pred tok d q hd hdne hq,
      show redactDigitsGo pred tok [] ([] : List Char) = [] from rfl]
    simp
  · rw [List.append_assoc]
    rw [redactDigitsGo_split_last pred tok p0 c (d ++ q) [] hc]
    rw [redactDigitsGo_run pred tok d q hd hdne hq]
    simp [List.append_assoc]

theorem sanitizeChars_surgery (p d q : List Char)
    (hp : p = [] ∨ ∃ p0 c, p = p0 ++ [c] ∧ c.isDigit = false)
    (hq : q = [] ∨ ∃ c q0, q = c :: q0 ∧ c.isDigit = false)
    (hd : ∀ c ∈ d, c.isDigit = true) (hdne : d ≠ [])
    (hclean : emailCleanB (p ++ d ++ q) = true)
    (hcard : isCardRun d = false) :
    sanitizeChars (p ++ d ++ q)
      = digitPasses p ++ (if isSsnRun d then ssnTok else d) ++ digitPasses q := by
  show redactSSNs (redactCards (redactEmails (p ++ d ++ q))) = _
  rw [redactEmails_fix_of_cleanB hclean]
  show redactSSNs (redactDigitsGo isCardRun cardTok [] (p ++ d ++ q)) = _
  rw [redactDigitsGo_surgery isCardRun cardTok p d q hp hq hd hdne,
    if_neg (by simp [hcard])]
  have hpA : redactDigitsGo isCardRun cardTok [] p = []
      ∨ ∃ a0 c, redactDigitsGo isCardRun cardTok [] p = a0 ++ [c]
          ∧ c.isDigit = false := by
    rcases hp with rfl | ⟨p0, c, rfl, hc⟩
    · exact Or.inl (by simp [redactDigitsGo, flushRun])
    · obtain ⟨l, hl⟩ := redactDigitsGo_last isCardRun cardTok p0 c [] hc
      exact Or.inr ⟨l, c, hl, hc⟩
  have hqB : redactDigitsGo isCardRun cardTok [] q = []
      ∨ ∃ c q0, redactDigitsGo isCardRun cardTok [] q = c :: q0
          ∧ c.isDigit = false := by
    rcases hq with rfl | ⟨c, q0, rfl, hc⟩
    · exact Or.inl (by simp [redactDigitsGo, flushRun])
    · refine Or.inr ⟨c, redactDigitsGo isCardRun cardTok [] q0, ?_, hc⟩
      show redactDigitsGo isCardRun cardTok [] (c :: q0) = _
      simp [redactDigitsGo, hc, flushRun]
  show redactDigitsGo isSsnRun ssnTok []
      (redactDigitsGo isCardRun cardTok [] p ++ d
        ++ redactDigitsGo isCardRun cardTok [] q) = _
  rw [redactDigitsGo_surgery isSsnRun ssnTok _ d _ hpA hqB hd hdne]
  rfl

/-- C4 counterexample: the claim "every boundary-delimited run of exactly 9
digits is replaced by `<REDACTED: SSN>`" fails on `"123456789@x.co"` — the
string contains the boundary-delimited 9-digit run `123456789` (left string
edge, right boundary the non-digit `@`), yet `sanitize` replaces the whole
string by `<REDACTED: EMAIL>` (digits are local-part characters, so the
earlier email pass consumes the run first) and the output contains no
`<REDACTED: SSN>` token at all. -/
theorem sanitize_ssnRun_counterexample :
    ("123456789@x.co" : String).data
        = ("123456789" : String).data ++ '@' :: ("x.co" : String).data
    ∧ (∀ c ∈ ("123456789" : String).data, c.isDigit = true)
    ∧ ("123456789" : String).data.length = 9
    ∧ sanitizeString "123456789@x.co" = "<REDACTED: EMAIL>"
    ∧ ¬ (ssnTok <:+: (sanitizeString "123456789@x.co").data) := by
  exact ⟨by decide, by decide, by decide, by decide, by decide⟩

/-- C4 (amended): for runs not consumed by the earlier email pass —
formally, in strings where the email detector matches nothing — the
digit-run behavior holds: every boundary-delimited run of exactly 9 digits
is replaced by `<REDACTED: SSN>`; boundary-delimited runs of 8 or 10 digits
are left untouched; a 13–19 digit run failing the Luhn checksum is left
untouched verbatim; and every string with no character sequence matching
any of the three detector patterns is preserved byte-for-byte. -/
theorem sanitize_digitRuns (p d q : List Char)
    (hp : p = [] ∨ ∃ p0 c, p = p0 ++ [c] ∧ c.isDigit = false)
    (hq : q = [] ∨ ∃ c q0, q = c :: q0 ∧ c.isDigit = false)
    (hd : ∀ c ∈ d, c.isDigit = true) (hdne : d ≠ [])
    (hclean : emailCleanB (p ++ d ++ q) = true) :
    (d.length = 9 →
        sanitizeChars (p ++ d ++ q) = digitPasses p ++ ssnTok ++ digitPasses q)
    ∧ (d.length = 8 ∨ d.length = 10 →
        sanitizeChars (p ++ d ++ q) = digitPasses p ++ d ++ digitPasses q)
    ∧ (13 ≤ d.length → d.length ≤ 19 → isValidLuhnList d = false →
        sanitizeChars (p ++ d ++ q) = digitPasses p ++ d ++ digitPasses q)
    ∧ (∀ s : List Char, emailCleanB s = true → runsFail isCardRun s = true →
        runsFail isSsnRun s = true → sanitizeChars s = s) := by
  refine ⟨fun h9 => ?_, fun h810 => ?_, fun h13 h19 hluhn => ?_,
    fun s hcl hcr hsr => ?_⟩
  · rw [sanitizeChars_surgery p d q hp hq hd hdne hclean
      (by simp [isCardRun, h9])]
    rw [if_pos (by simp [isSsnRun, h9])]
  · rcases h810 with h8 | h10
    · rw [sanitizeChars_surgery p d q hp hq hd hdne hclean
        (by simp [isCardRun, h8])]
      rw [if_neg (by simp [isSsnRun, h8])]
    · rw [sanitizeChars_surgery p d q hp hq hd hdne hclean
        (by simp [isCardRun, h10])]
      rw [if_neg (by simp [isSsnRun, h10])]
  · rw [sanitizeChars_surgery p d q hp hq hd hdne hclean
      (by simp [isCardRun, hluhn])]
    rw [if_neg (by simp [isSsnRun]; omega)]
  · show redactSSNs (redactCards (redactEmails s)) = s
    rw [redactEmails_fix_of_cleanB hcl]
    have hc2 : redactCards s = s := by
      have := redactDigitsGo_fix isCardRun cardTok s [] hcr
      simpa [redactCards] using this
    rw [hc2]
    have := redactDigitsGo_fix isSsnRun ssnTok s [] hsr
    simpa [redactSSNs] using this

/-- C4 witness: the amended theorem applied at concrete inputs — a 9-digit
run between spaces becomes the SSN token, an 8-digit run stays, a 16-digit
non-Luhn run stays, and a PII-free string is preserved. -/
theorem sanitize_digitRuns_witness :
    sanitizeChars ("My SSN is ".data ++ "123456789".data ++ " ok".data)
        = digitPasses "My SSN is ".data ++ ssnTok ++ digitPasses " ok".data
    ∧ sanitizeChars ("num ".data ++ "12345678".data ++ " end".data)
        = digitPasses "num ".data ++ "12345678".data ++ digitPasses " end".data
    ∧ sanitizeChars ("pay ".data ++ "1234567890123456".data ++ " now".data)
        = digitPasses "pay ".data ++ "1234567890123456".data
          ++ digitPasses " now".data
    ∧ sanitizeChars "a perfectly safe message".data
        = "a perfectly safe message".data := by
  refine ⟨?_, ?_, ?_, ?_⟩
  · exact (sanitize_digitRuns "My SSN is ".data "123456789".data " ok".data
      (Or.inr ⟨"My SSN is".data, ' ', by decide, by decide⟩)
      (Or.inr ⟨' ', "ok".data, by decide, by decide⟩)
      (by decide) (by decide) (by decide)).1 (by decide)
  · exact (sanitize_digitRuns "num ".data "12345678".data " end".data
      (Or.inr ⟨"num".data, ' ', by decide, by decide⟩)
      (Or.inr ⟨' ', "end".data, by decide, by decide⟩)
      (by decide) (by decide) (by decide)).2.1 (Or.inl (by decide))
  · exact (sanitize_digitRuns "pay ".data "1234567890123456".data " now".data
      (Or.inr ⟨"pay".data, ' ', by decide, by decide⟩)
      (Or.inr ⟨' ', "now".data, by decide, by decide⟩)
      (by decide) (by decide) (by decide)).2.2.1 (by decide) (by decide)
      (by decide)
  · exact (sanitize_digitRuns [] ['0'] [] (Or.inl rfl) (Or.inl rfl)
      (by decide) (by decide) (by decide)).2.2.2
      "a perfectly safe message".data (by decide) (by decide) (by decide)

/-- C5: sanitization is idempotent at the placeholder boundary — for every
string `m`, `sanitize(sanitize(m)) = sanitize(m)`: a placeholder token
inserted by an earlier detector pass is never re-scanned or re-matched by
any later detector pass, so redacting an already-sanitized message
(containing only placeholder tokens and non-PII text) is a no-op. -/
theorem sanitize_idempotent :
    (∀ s : String, sanitizeString (sanitizeString s) = sanitizeString s)
    ∧ (∀ v : JSValue, sanitizeString (sanitize v) = sanitize v) := by
  have hstr : ∀ s : String,
      sanitizeString (sanitizeString s) = sanitizeString s := by
    intro s
    by_cases hs : s = ""
    · subst hs; rfl
    · have hinner : sanitizeString s = String.mk (sanitizeChars s.data) := by
        rw [sanitizeString, if_neg hs]
      rw [hinner]
      by_cases h2 : String.mk (sanitizeChars s.data) = ""
      · rw [sanitizeString, if_pos h2]; exact h2.symm
      · rw [sanitizeString, if_neg h2]
        exact congrArg String.mk (sanitizeChars_idem s.data)
  refine ⟨hstr, fun v => ?_⟩
  cases v with
  | str s => exact hstr s
  | num n => rfl
  | null => rfl
  | undefined => rfl
  | arr elems => rfl
  | obj tag => rfl

/-- C2: for every input value that is not a string — number, object, array,
null, undefined — and for the empty string, `sanitize` returns the empty
string; `sanitize` is a total function, so no error is raised on any of
these degenerate inputs. -/
theorem sanitize_nonString_empty :
    (∀ n : Int, sanitize (JSValue.num n) = "")
    ∧ sanitize JSValue.null = ""
    ∧ sanitize JSValue.undefined = ""
    ∧ (∀ elems, sanitize (JSValue.arr elems) = "")
    ∧ (∀ tag, sanitize (JSValue.obj tag) = "")
    ∧ sanitize (JSValue.str "") = "" := by
  exact ⟨fun n => rfl, rfl, rfl, fun elems => rfl, fun tag => rfl, rfl⟩

/-- C3 witness: the Luhn characterization applied at the classic test value
`79927398713`, whose positional spec sum is divisible by 10. -/
theorem isValidLuhn_spec_witness : isValidLuhn "79927398713" = true :=
  (isValidLuhn_spec.1 "79927398713").mpr (by decide)

/-- C8: whenever `isOpen` is true at the start of `executeSecureInquiry`,
the flow throws a `CircuitOpenError` with message `'Service Busy'` and makes
no call at all to the collaborators: in particular the generation service,
the sanitizer and the audit store are never invoked for that request. -/
theorem executeSecureInquiry_fastReject {ε : Type} (deps : Deps ε)
    (c : Int) (userId message timestamp : String)
    (hopen : isOpen c = true) :
    (executeSecureInquiry deps c userId message timestamp).result
        = Except.error (Thrown.circuitOpen "Service Busy")
    ∧ (executeSecureInquiry deps c userId message timestamp).calls = []
    ∧ (∀ s, CallEvent.generateCall s
        ∉ (executeSecureInquiry deps c userId message timestamp).calls)
    ∧ (∀ s, CallEvent.sanitizeCall s
        ∉ (executeSecureInquiry deps c userId message timestamp).calls)
    ∧ (∀ en, CallEvent.saveAuditCall en
        ∉ (executeSecureInquiry deps c userId message timestamp).calls) := by
  simp [executeSecureInquiry, hopen]

/-- C8 witness: the fast-reject theorem applied to a concrete open gate
(counter 3) and trivial dependencies. -/
theorem executeSecureInquiry_fastReject_witness :
    (executeSecureInquiry
        (ε := Unit)
        { sanitize := fun s => s,
          generateAnswer := fun _ => Except.ok "Generated Answer",
          encrypt := fun s => Except.ok s,
          saveAudit := fun _ => Except.ok () }
        3 "user1" "hello" "u").result
      = Except.error (Thrown.circuitOpen "Service Busy") :=
  (executeSecureInquiry_fastReject _ 3 "user1" "hello" "u" (by decide)).1

/-- C9: if the generation-service call rejects with error `e` (and the gate
was closed), the flow records exactly one failure on the gate (counter goes
from `c` to `c + 1`), re-throws the very same error `e` unchanged, and
writes no audit entry for that request. -/
theorem executeSecureInquiry_aiFailure {ε : Type} (deps : Deps ε)
    (c : Int) (userId message timestamp : String) (e : ε)
    (hclosed : isOpen c = false)
    (hgen : deps.generateAnswer (deps.sanitize message) = Except.error e) :
    (executeSecureInquiry deps c userId message timestamp).result
        = Except.error (Thrown.dep e)
    ∧ (executeSecureInquiry deps c userId message timestamp).failureCount
        = recordFailure c
    ∧ (executeSecureInquiry deps c userId message timestamp).calls.count
        CallEvent.recordFailureCall = 1
    ∧ (∀ en, CallEvent.saveAuditCall en
        ∉ (executeSecureInquiry deps c userId message timestamp).calls) := by
  simp [executeSecureInquiry, hclosed, hgen, List.count_cons]

/-- C9 witness: the failure-path theorem applied at concrete inputs with a
generation service that always rejects with the concrete error `"boom"`. -/
theorem executeSecureInquiry_aiFailure_witness :
    (executeSecureInquiry
        (ε := String)
        { sanitize := fun s => s,
          generateAnswer := fun _ => Except.error "boom",
          encrypt := fun s => Except.ok s,
          saveAudit := fun _ => Except.ok () }
        0 "user1" "hello" "u").result
      = Except.error (Thrown.dep "boom") :=
  (executeSecureInquiry_aiFailure _ 0 "user1" "hello" "u" "boom"
      (by decide) rfl).1

/-- C10: once the generation service resolves successfully, `recordSuccess`
has already been applied before the audit entry is encrypted and written, so
the final counter is 0 and the gate is Closed no matter what `encrypt` or
`saveAudit` do; when `encrypt` or `saveAudit` fails with error `e`, that
error propagates to the caller while `recordFailure` was never called —
an audit-write failure is never recorded as a gate failure. -/
theorem executeSecureInquiry_auditFailureKeepsGateClosed {ε : Type}
    (deps : Deps ε) (c : Int) (userId message timestamp answer : String)
    (hclosed : isOpen c = false)
    (hgen : deps.generateAnswer (deps.sanitize message) = Except.ok answer) :
    (executeSecureInquiry deps c userId message timestamp).failureCount = 0
    ∧ isOpen (executeSecureInquiry deps c userId message timestamp).failureCount
        = false
    ∧ CallEvent.recordFailureCall
        ∉ (executeSecureInquiry deps c userId message timestamp).calls
    ∧ (∀ e, deps.encrypt message = Except.error e →
        (executeSecureInquiry deps c userId message timestamp).result
          = Except.error (Thrown.dep e))
    ∧ (∀ e encrypted, deps.encrypt message = Except.ok encrypted →
        deps.saveAudit
            { userId := userId, timestamp := timestamp,
              originalMessageEncrypted := encrypted,
              sanitizedMessage := deps.sanitize message }
          = Except.error e →
        (executeSecureInquiry deps c userId message timestamp).result
          = Except.error (Thrown.dep e)) := by
  have hmain : ∀ goal : UCOutcome ε → Prop,
      (∀ e, goal
        { result := Except.error (Thrown.dep e), failureCount := 0,
          calls := [CallEvent.sanitizeCall message,
                    CallEvent.generateCall (deps.sanitize message),
                    CallEvent.recordSuccessCall,
                    CallEvent.encryptCall message] }) →
      (∀ e entry, goal
        { result := Except.error (Thrown.dep e), failureCount := 0,
          calls := [CallEvent.sanitizeCall message,
                    CallEvent.generateCall (deps.sanitize message),
                    CallEvent.recordSuccessCall,
                    CallEvent.encryptCall message,
                    CallEvent.saveAuditCall entry] }) →
      (∀ entry, goal
        { result := Except.ok answer, failureCount := 0,
          calls := [CallEvent.sanitizeCall message,
                    CallEvent.generateCall (deps.sanitize message),
                    CallEvent.recordSuccessCall,
                    CallEvent.encryptCall message,
                    CallEvent.saveAuditCall entry] }) →
      goal (executeSecureInquiry deps c userId message timestamp) := by
    intro goal g1 g2 g3
    simp only [executeSecureInquiry, hclosed, Bool.false_eq_true, if_false, hgen,
      recordSuccess]
    cases deps.encrypt message with
    | error e => exact g1 e
    | ok encrypted =>
        dsimp only
        cases deps.saveAudit _ with
        | error e => exact g2 e _
        | ok u => exact g3 _
  refine ⟨?_, ?_, ?_, fun e henc => ?_, fun e encrypted henc hsave => ?_⟩
  · exact hmain (fun o => o.failureCount = 0)
      (fun _ => rfl) (fun _ _ => rfl) (fun _ => rfl)
  · exact hmain (fun o => isOpen o.failureCount = false)
      (fun _ => rfl) (fun _ _ => rfl) (fun _ => rfl)
  · refine hmain (fun o => CallEvent.recordFailureCall ∉ o.calls)
      (fun _ => by simp) (fun _ _ => by simp) (fun _ => by simp)
  · simp [executeSecureInquiry, hclosed, hgen, henc]
  · simp [executeSecureInquiry, hclosed, hgen, henc, hsave]

/-- C10 witness: the audit-failure theorem applied at concrete inputs where
`saveAudit` always rejects with `"disk full"`: the error propagates while
the counter ends at 0 with the gate closed. -/
theorem executeSecureInquiry_auditFailure_witness :
    (executeSecureInquiry
        (ε := String)
        { sanitize := fun s => s,
          generateAnswer := fun _ => Except.ok "Generated Answer",
          encrypt := fun s => Except.ok s,
          saveAudit := fun _ => Except.error "disk full" }
        2 "user1" "hello" "u").failureCount = 0
    ∧ (executeSecureInquiry
        (ε := String)
        { sanitize := fun s => s,
          generateAnswer := fun _ => Except.ok "Generated Answer",
          encrypt := fun s => Except.ok s,
          saveAudit := fun _ => Except.error "disk full" }
        2 "user1" "hello" "u").result
      = Except.error (Thrown.dep "disk full") := by
  have h := executeSecureInquiry_auditFailureKeepsGateClosed
      (ε := String)
      { sanitize := fun s => s,
        generateAnswer := fun _ => Except.ok "Generated Answer",
        encrypt := fun s => Except.ok s,
        saveAudit := fun _ => Except.error "disk full" }
      2 "user1" "hello" "u" "Generated Answer" (by decide) rfl
  exact ⟨h.1, h.2.2.2.2 "disk full" "hello" rfl rfl⟩

end Guardian
